import Mathlib

/-!
# Verification of the Ouruborus memory-engine specification

Shallow embedding of the parts of the repository needed to settle the
frozen claims: the in-memory mock vector store (`tests/brain/conftest.py`,
class `MockChromaCollection`), the backup-migration tool
(`core/genesis/scripts/migrate_backup.py`), the project analyzer CLI
(`core/genesis/scripts/analyze_project.py`), and — modelled from the
specification, since `brain_sqlite.py` / `sleep.py` are not part of the
source tree — the graph upsert (`add_memory`) and the sleep phases
`calibrate` and `promote`.

Conventions: Python floats are modelled as `ℚ`; the real-valued cosine
distance (which involves a square root) is interpreted into `ℝ` by a
separate interpretation function.  File contents are modelled as lists of
lines (each line a `List Char`), file systems as explicit structures.
-/

/- ══════════════════════════════════════════════════════════════════════
   C9 — migrate_backup.cleanup_backups: the `force` parameter is unused
   ══════════════════════════════════════════════════════════════════════ -/

/-- The part of the project directory state that `cleanup_backups` reads
and mutates: whether `.claude.bak/` exists, whether `CLAUDE.md.bak`
exists, and the list of `*.bak` files under `.claude/` (as relative
paths, in `rglob` order), plus whether `.claude/` itself exists. -/
structure CleanupFs where
  claudeBakDir : Bool
  claudeMdBak : Bool
  claudeDirExists : Bool
  bakFilesUnderClaude : List String
deriving Repr, DecidableEq

/-- Result of `cleanup_backups`: the new state and the `removed` list
(the `success` key is always `True`, `count` is `removed.length`). -/
structure CleanupResult where
  state : CleanupFs
  removed : List String
deriving Repr, DecidableEq

/-- `migrate_backup.cleanup_backups(project_dir, force=False)`.
The body never reads `force`: it unconditionally removes `.claude.bak/`,
`CLAUDE.md.bak`, and every `*.bak` file under `.claude/`. -/
def cleanup_backups (fs : CleanupFs) (force : Bool) : CleanupResult :=
  let _ := force
  let r1 : List String := if fs.claudeBakDir then [".claude.bak/"] else []
  let r2 : List String := if fs.claudeMdBak then ["CLAUDE.md.bak"] else []
  let r3 : List String := if fs.claudeDirExists then fs.bakFilesUnderClaude else []
  { state := { claudeBakDir := false
               claudeMdBak := false
               claudeDirExists := fs.claudeDirExists
               bakFilesUnderClaude := if fs.claudeDirExists then [] else fs.bakFilesUnderClaude }
    removed := r1 ++ r2 ++ r3 }

/- ══════════════════════════════════════════════════════════════════════
   C3 — CLI exit codes (analyze_project.py main, migrate_backup.py main)
   ══════════════════════════════════════════════════════════════════════ -/

/-- Outcome of command-line parsing: a successful parse (after which both
`main` functions run to completion and the process exits 0, absent an
exception), the `argparse` help path (exit 0), or an `argparse` usage
error.  Per the Python documentation, `ArgumentParser.error` terminates
the process with exit status 2. -/
inductive CliOutcome where
  | ok
  | help
  | usageError
deriving Repr, DecidableEq

/-- Exit code of a process whose argument parsing had the given outcome
and whose action then completed normally. -/
def cliExit : CliOutcome → Nat
  | .ok => 0
  | .help => 0
  | .usageError => 2

/-- Argument parser of `analyze_project.main`: options `--project-dir V`,
`--output {text,json}`, plus the automatic `-h` / `--help`.  Unknown flags,
stray positionals, missing option values and invalid choices are usage
errors.  (The model takes flags literally; `argparse` prefix
abbreviation and the `--opt=value` form are not modelled.) -/
def analyzeParse : List String → CliOutcome
  | [] => .ok
  | "-h" :: _ => .help
  | "--help" :: _ => .help
  | "--project-dir" :: _ :: rest => analyzeParse rest
  | ["--project-dir"] => .usageError
  | "--output" :: v :: rest =>
      if v = "text" ∨ v = "json" then analyzeParse rest else .usageError
  | ["--output"] => .usageError
  | _ :: _ => .usageError

/-- Exit code of `python3 analyze_project.py <argv>` (action assumed to
complete without raising). -/
def analyzeExit (argv : List String) : Nat := cliExit (analyzeParse argv)

/-- Argument parser of `migrate_backup.main`: options `--project-dir V`,
the boolean flags `--detect --analyze --migrate --cleanup`,
`--strategy {smart,preserve,ignore}`, `--output {text,json}`, plus
`-h` / `--help`. -/
def migrateParse : List String → CliOutcome
  | [] => .ok
  | "-h" :: _ => .help
  | "--help" :: _ => .help
  | "--project-dir" :: _ :: rest => migrateParse rest
  | ["--project-dir"] => .usageError
  | "--detect" :: rest => migrateParse rest
  | "--analyze" :: rest => migrateParse rest
  | "--migrate" :: rest => migrateParse rest
  | "--cleanup" :: rest => migrateParse rest
  | "--strategy" :: v :: rest =>
      if v = "smart" ∨ v = "preserve" ∨ v = "ignore" then migrateParse rest else .usageError
  | ["--strategy"] => .usageError
  | "--output" :: v :: rest =>
      if v = "text" ∨ v = "json" then migrateParse rest else .usageError
  | ["--output"] => .usageError
  | _ :: _ => .usageError

/-- Exit code of `python3 migrate_backup.py <argv>` (action assumed to
complete without raising). -/
def migrateExit (argv : List String) : Nat := cliExit (migrateParse argv)

/- ══════════════════════════════════════════════════════════════════════
   Theorems
   ══════════════════════════════════════════════════════════════════════ -/

/-- C9: `cleanup_backups` behaves identically for `force=True` and
`force=False` — the parameter never influences what is deleted or
returned; deletion is unconditional. -/
theorem cleanup_backups_force_irrelevant (fs : CleanupFs) :
    cleanup_backups fs true = cleanup_backups fs false := rfl

/-- C3, counterexample: an invalid `--strategy` value is a usage error,
and the process exits with code 2 — not 1 as the claim states. -/
theorem cli_usage_error_exits_two :
    migrateExit ["--migrate", "--strategy", "bogus"] = 2 ∧
    analyzeExit ["--output", "bogus"] = 2 ∧ (2 : Nat) ≠ 1 := by
  refine ⟨rfl, rfl, by decide⟩

/-- C3, amended: both CLIs exit 0 when parsing succeeds (or on `--help`)
and 2 on every usage error; no other exit code arises from argument
handling. -/
theorem cli_exit_codes (argv argv' : List String) :
    (migrateExit argv = 0 ∨ migrateExit argv = 2) ∧
    (analyzeExit argv' = 0 ∨ analyzeExit argv' = 2) := by
  constructor
  · unfold migrateExit
    cases migrateParse argv <;> simp [cliExit]
  · unfold analyzeExit
    cases analyzeParse argv' <;> simp [cliExit]

/- ══════════════════════════════════════════════════════════════════════
   MockChromaCollection (tests/brain/conftest.py) — store, upsert, get
   ══════════════════════════════════════════════════════════════════════ -/

/-- An embedding vector (a Python list of floats, modelled over `ℚ`). -/
abbrev Emb := List ℚ

/-- A value of `MockChromaCollection._store`: the record stored under an
id.  The source also stores a `metadata` dict; no claim reads it, so it
is omitted here. -/
structure EntryData where
  embedding : Option Emb
deriving Repr, DecidableEq

/-- `MockChromaCollection._store`: a Python dict modelled as an
association list in insertion order (assignment to an existing key keeps
its position, a new key is appended — CPython dict semantics). -/
abbrev ChromaStore := List (String × EntryData)

/-- Dict membership `nid in self._store`. -/
def storeContains (st : ChromaStore) (k : String) : Bool :=
  st.any (fun p => p.1 == k)

/-- Dict read `self._store[nid]` (first matching key). -/
def storeLookup (st : ChromaStore) (k : String) : Option EntryData :=
  (st.find? (fun p => p.1 == k)).map (·.2)

/-- Dict assignment `self._store[nid] = v`. -/
def storeSet (st : ChromaStore) (k : String) (v : EntryData) : ChromaStore :=
  if storeContains st k then st.map (fun p => if p.1 == k then (k, v) else p)
  else st ++ [(k, v)]

/-- `MockChromaCollection.count()`. -/
def chromaCount (st : ChromaStore) : Nat := st.length

/-- `MockChromaCollection.upsert(ids, embeddings)`: for each index `i`,
store `embeddings[i] if embeddings else None` under `ids[i]`.  (Where
`embeddings` is non-empty but shorter than `ids`, Python raises
IndexError; the model stores `none` there instead — no claim and no test
exercises that case.) -/
def chromaUpsert (st : ChromaStore) (ids : List String) (embeddings : List Emb) : ChromaStore :=
  (List.range ids.length).foldl
    (fun s i => storeSet s (ids.getD i "")
      ⟨if embeddings.isEmpty then none else embeddings.get? i⟩) st

/-- `MockChromaCollection.get(ids)`: walks the requested ids in order and
collects `(id, embedding)` for those present.  The source returns the
found ids and their embeddings as two parallel lists; the model returns
their zip. -/
def chromaGet (st : ChromaStore) (ids : List String) : List (String × Option Emb) :=
  ids.filterMap (fun nid => (storeLookup st nid).map (fun e => (nid, e.embedding)))

/-- `MockChromaCollection.delete(ids)`: `self._store.pop(nid, None)` for
each requested id. -/
def chromaDelete (st : ChromaStore) (ids : List String) : ChromaStore :=
  ids.foldl (fun s nid => s.filter (fun p => !(p.1 == nid))) st

theorem storeSet_length_of_contains (st : ChromaStore) (k : String) (v : EntryData)
    (h : storeContains st k = true) : (storeSet st k v).length = st.length := by
  simp [storeSet, h]

theorem storeSet_length_of_not_contains (st : ChromaStore) (k : String) (v : EntryData)
    (h : storeContains st k = false) : (storeSet st k v).length = st.length + 1 := by
  simp [storeSet, h]

theorem storeLookup_storeSet_self (st : ChromaStore) (k : String) (v : EntryData) :
    storeLookup (storeSet st k v) k = some v := by
  unfold storeSet
  by_cases h : storeContains st k = true
  · simp only [h, if_true]
    induction st with
    | nil => simp [storeContains] at h
    | cons p ps ih =>
      by_cases hp : p.1 == k
      · simp [storeLookup, List.find?, hp]
      · have hps : storeContains ps k = true := by
          simpa [storeContains, hp] using h
        have := ih hps
        simpa [storeLookup, List.find?, hp] using this
  · have h' : storeContains st k = false := by simpa using h
    simp only [h', if_false]
    have hnone : st.find? (fun p => p.1 == k) = none := by
      rw [List.find?_eq_none]
      intro x hx
      intro hxk
      have hany : st.any (fun p => p.1 == k) = true := List.any_eq_true.mpr ⟨x, hx, hxk⟩
      have : storeContains st k = true := hany
      rw [h'] at this
      exact Bool.false_ne_true this
    simp [storeLookup, List.find?_append, hnone, List.find?]

theorem chromaUpsert_single (st : ChromaStore) (id : String) (v : Emb) :
    chromaUpsert st [id] [v] = storeSet st id ⟨some v⟩ := rfl

/-- C6: on the vector store, upserting an id that is already present
keeps `count()` unchanged, upserting an absent id increases `count()` by
exactly one, and after `upsert(id, v₁)` then `upsert(id, v₂)`, `get([id])`
returns `v₂`. -/
theorem chroma_upsert_semantics (st : ChromaStore) (id : String) (v₁ v₂ : Emb) :
    (storeContains st id = true →
      chromaCount (chromaUpsert st [id] [v₁]) = chromaCount st) ∧
    (storeContains st id = false →
      chromaCount (chromaUpsert st [id] [v₁]) = chromaCount st + 1) ∧
    chromaGet (chromaUpsert (chromaUpsert st [id] [v₁]) [id] [v₂]) [id]
      = [(id, some v₂)] := by
  refine ⟨?_, ?_, ?_⟩
  · intro h
    rw [chromaUpsert_single]
    exact storeSet_length_of_contains st id _ h
  · intro h
    rw [chromaUpsert_single]
    exact storeSet_length_of_not_contains st id _ h
  · rw [chromaUpsert_single, chromaUpsert_single]
    simp [chromaGet, storeLookup_storeSet_self]

/-- C6 witness: concrete instances of the three upsert facts. -/
theorem chroma_upsert_semantics_witness :
    (chromaCount (chromaUpsert [("n1", ⟨some [1]⟩)] ["n1"] [[2]]) =
      chromaCount [("n1", ⟨some [1]⟩)]) ∧
    (chromaCount (chromaUpsert [("n1", ⟨some [1]⟩)] ["n2"] [[2]]) =
      chromaCount [("n1", ⟨some [1]⟩)] + 1) ∧
    chromaGet (chromaUpsert (chromaUpsert [] ["n1"] [[1, 0]]) ["n1"] [[0, 1]]) ["n1"]
      = [("n1", some [0, 1])] :=
  ⟨(chroma_upsert_semantics [("n1", ⟨some [1]⟩)] "n1" [2] [2]).1 (by decide),
   (chroma_upsert_semantics [("n1", ⟨some [1]⟩)] "n2" [2] [2]).2.1 (by decide),
   (chroma_upsert_semantics [] "n1" [1, 0] [0, 1]).2.2⟩

/-- C7: `get(ids)` returns entries exactly for the requested ids present
in the store, in request order, skipping missing ids; when none is
present the result is empty (and the function is total — no exception). -/
theorem chroma_get_semantics (st : ChromaStore) (ids : List String) :
    ((chromaGet st ids).map Prod.fst
        = ids.filter (fun i => (storeLookup st i).isSome)) ∧
    (∀ p ∈ chromaGet st ids, ∃ e, storeLookup st p.1 = some e ∧ p.2 = e.embedding) ∧
    ((∀ i ∈ ids, storeLookup st i = none) → chromaGet st ids = []) := by
  refine ⟨?_, ?_, ?_⟩
  · induction ids with
    | nil => simp [chromaGet]
    | cons i is ih =>
      cases h : storeLookup st i with
      | none => simpa [chromaGet, h] using ih
      | some e => simpa [chromaGet, h] using ih
  · intro p hp
    rcases List.mem_filterMap.mp hp with ⟨i, _, hmap⟩
    cases h : storeLookup st i with
    | none => rw [h] at hmap; simp at hmap
    | some e =>
      rw [h] at hmap
      have hp' : p = (i, e.embedding) := by simpa using hmap.symm
      subst hp'
      exact ⟨e, h, rfl⟩
  · intro hall
    simp only [chromaGet]
    rw [List.filterMap_eq_nil]
    intro i hi
    rw [hall i hi]
    rfl

/-- C7 witness: a store holding only `"a"`, queried for `["x", "y"]`,
yields the empty result. -/
theorem chroma_get_semantics_witness :
    chromaGet [("a", ⟨some [1]⟩)] ["x", "y"] = [] :=
  (chroma_get_semantics [("a", ⟨some [1]⟩)] ["x", "y"]).2.2 (by decide)

/- ══════════════════════════════════════════════════════════════════════
   C1 — add_memory upsert (modelled from the spec; brain_sqlite.py is
   not part of the source tree, only its tests are)
   ══════════════════════════════════════════════════════════════════════ -/

/-- Modelled from the spec: the node record kept by the graph store, as
far as the upsert claim needs it (`labels`, `content`, `author`). -/
structure BNode where
  labels : List String
  content : String
  author : String
deriving Repr, DecidableEq

/-- The graph store's node table, id → node, in insertion order. -/
abbrev BrainState := List (String × BNode)

/-- Modelled from the spec: node ids are deterministic — the first 8 hex
chars of `md5(title | sorted_labels_joined_by_pipe)`.  `brain_sqlite.py`
is missing from the source tree; the md5 digest is abstracted as the
joined string itself, keeping exactly what the claim needs: the id is a
deterministic function of `(title, sorted labels)`. -/
def nodeId (title : String) (labels : List String) : String :=
  title ++ "|" ++ String.intercalate "|" (labels.insertionSort (· ≤ ·))

/-- Modelled from the spec: on upsert, labels become the union with the
prior labels (prior labels first, genuinely new ones appended). -/
def unionLabels (old new : List String) : List String :=
  old ++ new.filter (fun l => !(old.contains l))

/-- `get_node(id)`: first node stored under the id, if any. -/
def get_node (st : BrainState) (id : String) : Option BNode :=
  (st.find? (fun p => p.1 == id)).map (·.2)

/-- Modelled from the spec: `add_memory(title, content, labels, author)`
is upsert-safe — the id is derived from `(title, labels)`; when a node
with that id exists, its content is replaced and its labels become the
union with the prior labels; otherwise a fresh node is appended. -/
def upsertExisting (st : BrainState) (id : String) (content : String)
    (labels : List String) : BrainState :=
  st.map (fun p =>
    if p.1 == id then
      (id, { p.2 with content := content, labels := unionLabels p.2.labels labels })
    else p)

def add_memory (st : BrainState) (title content : String) (labels : List String)
    (author : String) : String × BrainState :=
  let id := nodeId title labels
  if (st.find? (fun p => p.1 == id)).isSome then
    (id, upsertExisting st id content labels)
  else
    (id, st ++ [(id, ⟨labels, content, author⟩)])

theorem add_memory_fst (st : BrainState) (title content : String)
    (labels : List String) (author : String) :
    (add_memory st title content labels author).1 = nodeId title labels := by
  simp only [add_memory]
  split <;> rfl

theorem get_node_map_update (st : BrainState) (id : String) (f : BNode → BNode) :
    get_node (st.map (fun p => if p.1 == id then (id, f p.2) else p)) id
      = (get_node st id).map f := by
  induction st with
  | nil => rfl
  | cons p ps ih =>
    by_cases hp : p.1 == id
    · simp [get_node, List.find?, hp]
    · simpa [get_node, List.find?, hp] using ih

theorem map_update_fst (st : BrainState) (id : String) (f : BNode → BNode) :
    (st.map (fun p => if p.1 == id then (id, f p.2) else p)).map Prod.fst
      = st.map Prod.fst := by
  rw [List.map_map]
  refine List.map_eq_map_iff.mpr ?_
  intro p _
  by_cases hp : p.1 == id
  · show ((if p.1 == id then (id, f p.2) else p).1 : String) = p.1
    rw [if_pos hp]
    exact (by simpa using hp : p.1 = id).symm
  · show ((if p.1 == id then (id, f p.2) else p).1 : String) = p.1
    rw [if_neg hp]

theorem get_node_append_of_none (st : BrainState) (id : String) (n : BNode)
    (h : get_node st id = none) :
    get_node (st ++ [(id, n)]) id = some n := by
  have hfind : st.find? (fun p => p.1 == id) = none := by
    unfold get_node at h
    cases hf : st.find? (fun p => p.1 == id) with
    | none => rfl
    | some q => rw [hf] at h; simp at h
  simp [get_node, List.find?_append, hfind, List.find?]

theorem mem_unionLabels_left (old new : List String) (l : String) (h : l ∈ old) :
    l ∈ unionLabels old new := List.mem_append_left _ h

theorem mem_unionLabels_right (old new : List String) (l : String) (h : l ∈ new) :
    l ∈ unionLabels old new := by
  by_cases hc : l ∈ old
  · exact List.mem_append_left _ hc
  · refine List.mem_append_right _ ?_
    refine List.mem_filter.mpr ⟨h, ?_⟩
    simp [hc]

theorem get_node_upsertExisting (st : BrainState) (id : String) (content : String)
    (labels : List String) :
    get_node (upsertExisting st id content labels) id
      = (get_node st id).map (fun n =>
          { n with content := content, labels := unionLabels n.labels labels }) := by
  unfold upsertExisting
  exact get_node_map_update st id (fun n =>
    { n with content := content, labels := unionLabels n.labels labels })

theorem upsertExisting_fst (st : BrainState) (id : String) (content : String)
    (labels : List String) :
    (upsertExisting st id content labels).map Prod.fst = st.map Prod.fst := by
  unfold upsertExisting
  exact map_update_fst st id (fun n =>
    { n with content := content, labels := unionLabels n.labels labels })

theorem get_node_add_memory (st : BrainState) (title content : String)
    (labels : List String) (author : String) :
    get_node (add_memory st title content labels author).2 (nodeId title labels)
      = some (match get_node st (nodeId title labels) with
          | some n₀ =>
              { n₀ with content := content, labels := unionLabels n₀.labels labels }
          | none => ⟨labels, content, author⟩) := by
  by_cases h : (st.find? (fun p => p.1 == nodeId title labels)).isSome
  · have h2 : (add_memory st title content labels author).2
        = upsertExisting st (nodeId title labels) content labels := by
      simp only [add_memory, h, if_true]
    rw [h2, get_node_upsertExisting]
    cases hg : get_node st (nodeId title labels) with
    | none =>
      unfold get_node at hg
      cases hf : st.find? (fun p => p.1 == nodeId title labels) with
      | none => rw [hf] at h; simp at h
      | some q => rw [hf] at hg; simp at hg
    | some n₀ => rfl
  · have hb : st.find? (fun p => p.1 == nodeId title labels) = none := by
      cases hf : st.find? (fun p => p.1 == nodeId title labels) with
      | none => rfl
      | some q => rw [hf] at h; simp at h
    have hg : get_node st (nodeId title labels) = none := by
      unfold get_node; rw [hb]; rfl
    have h2 : (add_memory st title content labels author).2
        = st ++ [(nodeId title labels, ⟨labels, content, author⟩)] := by
      simp [add_memory, h]
    rw [h2, get_node_append_of_none st _ _ hg, hg]

theorem add_memory_keys_nodup (st : BrainState) (title content : String)
    (labels : List String) (author : String)
    (hkeys : (st.map Prod.fst).Nodup) :
    ((add_memory st title content labels author).2.map Prod.fst).Nodup := by
  by_cases h : (st.find? (fun p => p.1 == nodeId title labels)).isSome
  · have h2 : (add_memory st title content labels author).2
        = upsertExisting st (nodeId title labels) content labels := by
      simp only [add_memory, h, if_true]
    rw [h2, upsertExisting_fst]
    exact hkeys
  · have hb : st.find? (fun p => p.1 == nodeId title labels) = none := by
      cases hf : st.find? (fun p => p.1 == nodeId title labels) with
      | none => rfl
      | some q => rw [hf] at h; simp at h
    have h2 : (add_memory st title content labels author).2
        = st ++ [(nodeId title labels, ⟨labels, content, author⟩)] := by
      simp [add_memory, h]
    rw [h2]
    have hnotin : nodeId title labels ∉ st.map Prod.fst := by
      intro hmem
      rcases List.mem_map.mp hmem with ⟨p, hp, hfst⟩
      have : ∀ x ∈ st, ¬((fun q => q.1 == nodeId title labels) x = true) :=
        List.find?_eq_none.mp hb
      exact this p hp (by simpa using hfst)
    simp [List.nodup_append, hkeys, hnotin]

/-- C1: re-insertion is an upsert, never a duplicate — two `add_memory`
calls with the same `(title, labels)` return the same node id; afterwards
`get_node(id)` yields a node whose content is the second content and
whose labels include both the requested labels and all prior labels; the
store's keys stay duplicate-free.  (Modelled from the spec:
`brain_sqlite.py` is absent from the source tree.) -/
theorem add_memory_upsert (st : BrainState) (title c₁ c₂ : String)
    (labels : List String) (author : String)
    (hkeys : (st.map Prod.fst).Nodup) :
    (add_memory st title c₁ labels author).1
      = (add_memory (add_memory st title c₁ labels author).2
          title c₂ labels author).1 ∧
    (∃ n, get_node (add_memory (add_memory st title c₁ labels author).2
            title c₂ labels author).2 (add_memory st title c₁ labels author).1
          = some n ∧
        n.content = c₂ ∧
        (∀ l ∈ labels, l ∈ n.labels) ∧
        (∀ n₀, get_node st (add_memory st title c₁ labels author).1 = some n₀ →
          ∀ l ∈ n₀.labels, l ∈ n.labels)) ∧
    ((add_memory (add_memory st title c₁ labels author).2
        title c₂ labels author).2.map Prod.fst).Nodup := by
  refine ⟨?_, ?_, ?_⟩
  · rw [add_memory_fst, add_memory_fst]
  · rw [add_memory_fst]
    have h1 := get_node_add_memory st title c₁ labels author
    have h2 := get_node_add_memory
      (add_memory st title c₁ labels author).2 title c₂ labels author
    rw [h1] at h2
    refine ⟨_, h2, ?_, ?_, ?_⟩
    · cases hg : get_node st (nodeId title labels) <;> simp [hg]
    · intro l hl
      cases hg : get_node st (nodeId title labels) <;> simp only [hg]
      · exact mem_unionLabels_right _ _ _ hl
      · exact mem_unionLabels_right _ _ _ hl
    · intro n₀ hn₀ l hl
      rw [hn₀]
      simp only
      exact mem_unionLabels_left _ _ _ (mem_unionLabels_left _ _ _ hl)
  · exact add_memory_keys_nodup _ _ _ _ _
      (add_memory_keys_nodup st title c₁ labels author hkeys)

/-- C1 witness: the upsert theorem at the concrete inputs of
`test_upsert_generates_embedding_too` (empty store, title
"Upsert Test", labels `["Episode"]`). -/
theorem add_memory_upsert_witness :
    (add_memory [] "Upsert Test" "Original content" ["Episode"] "@test").1
      = (add_memory (add_memory [] "Upsert Test" "Original content" ["Episode"] "@test").2
          "Upsert Test" "Updated content" ["Episode"] "@test").1 ∧
    (∃ n, get_node (add_memory
            (add_memory [] "Upsert Test" "Original content" ["Episode"] "@test").2
            "Upsert Test" "Updated content" ["Episode"] "@test").2
          (add_memory [] "Upsert Test" "Original content" ["Episode"] "@test").1
          = some n ∧
        n.content = "Updated content" ∧
        (∀ l ∈ ["Episode"], l ∈ n.labels) ∧
        (∀ n₀, get_node []
            (add_memory [] "Upsert Test" "Original content" ["Episode"] "@test").1
            = some n₀ → ∀ l ∈ n₀.labels, l ∈ n.labels)) ∧
    ((add_memory (add_memory [] "Upsert Test" "Original content" ["Episode"] "@test").2
        "Upsert Test" "Updated content" ["Episode"] "@test").2.map Prod.fst).Nodup :=
  add_memory_upsert [] "Upsert Test" "Original content" "Updated content"
    ["Episode"] "@test" (by simp)

/- ══════════════════════════════════════════════════════════════════════
   C4, C5 — sleep phases `calibrate` and `promote` (modelled from the
   spec; sleep.py is not part of the source tree, only its tests are)
   ══════════════════════════════════════════════════════════════════════ -/

/-- Modelled from the spec: the per-node memory data the calibrate and
promote phases read (`strength`, `access_count`, `labels`). -/
structure GNode where
  strength : ℚ
  access_count : Nat
  labels : List String
deriving Repr, DecidableEq

/-- A directed, typed, weighted edge. -/
structure GEdge where
  src : String
  tgt : String
  type : String
  weight : ℚ
deriving Repr, DecidableEq

/-- The graph the sleep phases operate on. -/
structure SleepGraph where
  nodes : List (String × GNode)
  edges : List GEdge
deriving Repr, DecidableEq

/-- Structural edge types (spec §4.6 / glossary): `AUTHORED_BY` and
`BELONGS_TO`; every other type is semantic. -/
def structuralTypes : List String := ["AUTHORED_BY", "BELONGS_TO"]

/-- `access_count` of a node id (0 when the id is absent). -/
def accessOf (g : SleepGraph) (id : String) : Nat :=
  ((g.nodes.find? (fun p => p.1 == id)).map (fun p => p.2.access_count)).getD 0

/-- Modelled from the spec: one calibrate step on a single edge.  A
structural edge is never touched; a semantic edge whose endpoints'
summed `access_count` exceeds 5 is boosted to `min 1 (w × 1.15)`; a
semantic edge whose summed access is 0 and whose weight exceeds 0.2
decays to `max 0.1 (w × 0.95)`. -/
def calibrateEdge (g : SleepGraph) (e : GEdge) : GEdge :=
  if e.type ∈ structuralTypes then e
  else
    let s := accessOf g e.src + accessOf g e.tgt
    if 5 < s then { e with weight := min 1 (e.weight * (23 / 20)) }
    else if s = 0 ∧ (1 / 5 : ℚ) < e.weight then
      { e with weight := max (1 / 10) (e.weight * (19 / 20)) }
    else e

/-- Modelled from the spec: `sleep.phase_calibrate` recalibrates every
edge against the pre-phase access counts. -/
def phase_calibrate (g : SleepGraph) : SleepGraph :=
  { g with edges := g.edges.map (calibrateEdge g) }

instance : Inhabited GEdge := ⟨⟨"", "", "", 0⟩⟩

theorem phase_calibrate_getD (g : SleepGraph) (i : Nat) (hi : i < g.edges.length) :
    (phase_calibrate g).edges.getD i default
      = calibrateEdge g (g.edges.getD i default) := by
  unfold phase_calibrate
  simp only
  rw [List.getD_eq_getElem?_getD, List.getD_eq_getElem?_getD, List.getElem?_map,
    List.getElem?_eq_getElem hi]
  rfl

/-- A graph with a single structural (`AUTHORED_BY`) edge of weight 0.5
whose endpoints were never accessed. -/
def calCexGraph : SleepGraph :=
  { nodes := [("a", ⟨1, 0, ["Decision"]⟩), ("p", ⟨1, 0, ["Person"]⟩)]
    edges := [⟨"a", "p", "AUTHORED_BY", 1 / 2⟩] }

/-- C4 counterexample: the claim's decay clause ("if the summed
access_count is 0 and old_weight > 0.2, its weight becomes
max(0.1, w × 0.95)") fails on a structural edge — calibrate leaves the
`AUTHORED_BY` edge at weight 0.5, not 0.475, even though its summed
access is 0 and its weight exceeds 0.2. -/
theorem calibrate_claim_counterexample :
    accessOf calCexGraph "a" + accessOf calCexGraph "p" = 0 ∧
    (1 / 5 : ℚ) < (calCexGraph.edges.getD 0 default).weight ∧
    ((phase_calibrate calCexGraph).edges.getD 0 default).weight = 1 / 2 ∧
    ((phase_calibrate calCexGraph).edges.getD 0 default).weight
      ≠ max (1 / 10) ((calCexGraph.edges.getD 0 default).weight * (19 / 20)) := by
  refine ⟨rfl, by norm_num [calCexGraph], rfl, by norm_num [calCexGraph, phase_calibrate,
    calibrateEdge, structuralTypes, accessOf]⟩

/-- C4 amended: after one calibrate run (positions tracked by index),
every structural edge is unchanged; every **semantic** edge whose
endpoints' summed access exceeds 5 gets weight `min 1 (w × 1.15)`; every
**semantic** edge with summed access 0 and weight > 0.2 gets weight
`max 0.1 (w × 0.95)`.  (The claim's decay clause holds only for semantic
edges — structural edges are never touched.)  Modelled from the spec. -/
theorem phase_calibrate_semantics (g : SleepGraph) (i : Nat)
    (hi : i < g.edges.length) :
    (phase_calibrate g).edges.length = g.edges.length ∧
    ((g.edges.getD i default).type ∈ structuralTypes →
      (phase_calibrate g).edges.getD i default = g.edges.getD i default) ∧
    ((g.edges.getD i default).type ∉ structuralTypes →
      5 < accessOf g (g.edges.getD i default).src
            + accessOf g (g.edges.getD i default).tgt →
      ((phase_calibrate g).edges.getD i default).weight
        = min 1 ((g.edges.getD i default).weight * (23 / 20))) ∧
    ((g.edges.getD i default).type ∉ structuralTypes →
      accessOf g (g.edges.getD i default).src
          + accessOf g (g.edges.getD i default).tgt = 0 →
      (1 / 5 : ℚ) < (g.edges.getD i default).weight →
      ((phase_calibrate g).edges.getD i default).weight
        = max (1 / 10) ((g.edges.getD i default).weight * (19 / 20))) := by
  have hmap := phase_calibrate_getD g i hi
  refine ⟨by simp [phase_calibrate], ?_, ?_, ?_⟩
  · intro hs
    rw [hmap]
    generalize g.edges.getD i default = e at hs ⊢
    simp only [calibrateEdge]
    rw [if_pos hs]
  · intro hs hgt
    rw [hmap]
    generalize g.edges.getD i default = e at hs hgt ⊢
    simp only [calibrateEdge]
    rw [if_neg hs, if_pos hgt]
  · intro hs h0 hw
    rw [hmap]
    generalize g.edges.getD i default = e at hs h0 hw ⊢
    have hn5 : ¬ (5 < accessOf g e.src + accessOf g e.tgt) := by omega
    simp only [calibrateEdge]
    rw [if_neg hs, if_neg hn5, if_pos ⟨h0, hw⟩]

/-- A graph exercising both calibrate branches: a boosted semantic edge
(summed access 20), a decayed semantic edge (summed access 0). -/
def calWitGraph : SleepGraph :=
  { nodes := [("a", ⟨1, 10, ["Episode"]⟩), ("b", ⟨1, 10, ["Pattern"]⟩),
              ("c", ⟨1, 0, ["Episode"]⟩), ("d", ⟨1, 0, ["Pattern"]⟩)]
    edges := [⟨"a", "b", "REFERENCES", 3 / 5⟩, ⟨"c", "d", "RELATED_TO", 1 / 2⟩] }

/-- C4 witness: the amended calibrate facts at `calWitGraph`, edges 0
(boosted) and 1 (decayed). -/
theorem phase_calibrate_semantics_witness :
    (((phase_calibrate calWitGraph).edges.getD 0 default).weight
      = min 1 ((calWitGraph.edges.getD 0 default).weight * (23 / 20))) ∧
    (((phase_calibrate calWitGraph).edges.getD 1 default).weight
      = max (1 / 10) ((calWitGraph.edges.getD 1 default).weight * (19 / 20))) :=
  ⟨(phase_calibrate_semantics calWitGraph 0 (by decide)).2.2.1
      (by decide) (by decide),
   (phase_calibrate_semantics calWitGraph 1 (by decide)).2.2.2
      (by decide) (by decide) (by norm_num [calWitGraph])⟩

/-- Semantic edge types (spec §3). -/
def semanticTypes : List String :=
  ["REFERENCES", "INFORMED_BY", "APPLIES", "RELATED_TO", "SAME_SCOPE",
   "MODIFIES_SAME", "BELONGS_TO_THEME", "CLUSTERED_IN", "CO_ACCESSED"]

/-- Number of outgoing semantic edges of a node. -/
def semanticOutCount (g : SleepGraph) (id : String) : Nat :=
  (g.edges.filter (fun e => e.src == id && semanticTypes.contains e.type)).length

/-- Modelled from the spec: the promotion criterion — an `Episode` not
already a `Concept`, with `strength > 0.9`, `access_count ≥ 10`, and at
least 3 outgoing semantic edges. -/
def promotable (g : SleepGraph) (id : String) (n : GNode) : Prop :=
  "Episode" ∈ n.labels ∧ "Concept" ∉ n.labels ∧ (9 / 10 : ℚ) < n.strength ∧
    10 ≤ n.access_count ∧ 3 ≤ semanticOutCount g id

instance (g : SleepGraph) (id : String) (n : GNode) :
    Decidable (promotable g id n) := by
  unfold promotable
  infer_instance

/-- Modelled from the spec: promotion of a single node — a promotable
node gains the labels `Concept` and `PromotedEpisode` in addition to its
existing labels; all other nodes are untouched. -/
def promoteNode (g : SleepGraph) (id : String) (n : GNode) : GNode :=
  if promotable g id n then
    { n with labels := n.labels ++ ["Concept", "PromotedEpisode"] }
  else n

/-- Modelled from the spec: `sleep.phase_promote` examines every node
against the pre-phase graph. -/
def phase_promote (g : SleepGraph) : SleepGraph :=
  { g with nodes := g.nodes.map (fun p => (p.1, promoteNode g p.1 p.2)) }

/-- C5: after one promote run, every node meeting the promotion criterion
(labelled `Episode`, not already `Concept`, `strength > 0.9`,
`access_count ≥ 10`, ≥ 3 outgoing semantic edges) carries `Concept` and
`PromotedEpisode` in addition to all of its previous labels, and every
node missing any condition is left exactly as it was.  Modelled from the
spec (`sleep.py` is absent from the source tree). -/
theorem phase_promote_semantics (g : SleepGraph) (id : String) (n : GNode)
    (hmem : (id, n) ∈ g.nodes) :
    ∃ n', (id, n') ∈ (phase_promote g).nodes ∧
      (promotable g id n →
        "Concept" ∈ n'.labels ∧ "PromotedEpisode" ∈ n'.labels ∧
        ∀ l ∈ n.labels, l ∈ n'.labels) ∧
      (¬ promotable g id n → n' = n) := by
  refine ⟨promoteNode g id n, ?_, ?_, ?_⟩
  · have := List.mem_map_of_mem (fun p : String × GNode => (p.1, promoteNode g p.1 p.2)) hmem
    simpa [phase_promote] using this
  · intro hp
    unfold promoteNode
    rw [if_pos hp]
    refine ⟨?_, ?_, ?_⟩
    · simp
    · simp
    · intro l hl
      exact List.mem_append_left _ hl
  · intro hp
    unfold promoteNode
    rw [if_neg hp]

/-- The promote test scenario: an `Episode` with strength 0.95, access
count 15 and three outgoing semantic edges, plus an already-`Concept`
node. -/
def promWitGraph : SleepGraph :=
  { nodes := [("ep_hot", ⟨19 / 20, 15, ["Episode"]⟩),
              ("adr1", ⟨1, 1, ["Decision", "ADR"]⟩),
              ("concept1", ⟨1, 20, ["Concept"]⟩)]
    edges := [⟨"ep_hot", "adr1", "REFERENCES", 3 / 5⟩,
              ⟨"ep_hot", "concept1", "APPLIES", 3 / 5⟩,
              ⟨"ep_hot", "adr1", "RELATED_TO", 4 / 5⟩] }

/-- C5 witness: the promote theorem at `promWitGraph` for the hot
episode. -/
theorem phase_promote_semantics_witness :
    ∃ n', ("ep_hot", n') ∈ (phase_promote promWitGraph).nodes ∧
      (promotable promWitGraph "ep_hot" ⟨19 / 20, 15, ["Episode"]⟩ →
        "Concept" ∈ n'.labels ∧ "PromotedEpisode" ∈ n'.labels ∧
        ∀ l ∈ (⟨19 / 20, 15, ["Episode"]⟩ : GNode).labels, l ∈ n'.labels) ∧
      (¬ promotable promWitGraph "ep_hot" ⟨19 / 20, 15, ["Episode"]⟩ →
        n' = ⟨19 / 20, 15, ["Episode"]⟩) :=
  phase_promote_semantics promWitGraph "ep_hot" ⟨19 / 20, 15, ["Episode"]⟩
    (by simp [promWitGraph])

/- ══════════════════════════════════════════════════════════════════════
   MockChromaCollection.query — brute-force cosine distance search
   ══════════════════════════════════════════════════════════════════════ -/

/-- `sum(x * x for x in v)` — squared euclidean norm (the source takes
its square root; comparisons with 0 are equivalent on the square). -/
def sumSq (v : Emb) : ℚ := (v.map (fun x => x * x)).sum

/-- `sum(a * b for a, b in zip(qe, emb))` — dot product, truncating like
Python's `zip`. -/
def dotL (a b : Emb) : ℚ := ((a.zip b).map (fun p => p.1 * p.2)).sum

/-- The exact value of a computed distance.  `fin dot A` stands for the
real number `1 - dot / √A`, where `A` is the product of the squared
norms of the query and the stored embedding (the source computes
`1 - dot / (norm_q * norm_e)` and `norm_q * norm_e = √A`); `two` is the
literal fallback distance `2.0` used when either norm is zero. -/
inductive DistVal where
  | fin (dot A : ℚ)
  | two
deriving Repr, DecidableEq

/-- Real interpretation of a distance value. -/
noncomputable def DistVal.toR : DistVal → ℝ
  | .fin d A => 1 - (d : ℝ) / Real.sqrt (A : ℝ)
  | .two => 2

/-- Well-formedness: the norm product under a `fin` is positive (always
the case for distances produced by `query`). -/
def DistVal.posA : DistVal → Prop
  | .fin _ A => 0 < A
  | .two => True

/-- Exact rational decision of `d₂/√A₂ ≤ d₁/√A₁` (cosine comparison) by
sign analysis and squaring. -/
def cosGe (d₁ A₁ d₂ A₂ : ℚ) : Bool :=
  if 0 ≤ d₁ then
    if d₂ ≤ 0 then true
    else decide (d₂ ^ 2 * A₁ ≤ d₁ ^ 2 * A₂)
  else
    if 0 ≤ d₂ then false
    else decide (d₁ ^ 2 * A₂ ≤ d₂ ^ 2 * A₁)

/-- Exact rational decision of `toR x ≤ toR y` — the comparison the
Python float sort performs on the computed distances. -/
def dle : DistVal → DistVal → Bool
  | .fin d₁ A₁, .fin d₂ A₂ => cosGe d₁ A₁ d₂ A₂
  | .fin d A, .two => decide (0 ≤ d) || decide (d ^ 2 ≤ A)
  | .two, .fin d A => decide (d < 0) && decide (A ≤ d ^ 2)
  | .two, .two => true

theorem cosGe_iff (d₁ A₁ d₂ A₂ : ℚ) (h₁ : 0 < A₁) (h₂ : 0 < A₂) :
    cosGe d₁ A₁ d₂ A₂ = true
      ↔ (d₂ : ℝ) / Real.sqrt (A₂ : ℝ) ≤ (d₁ : ℝ) / Real.sqrt (A₁ : ℝ) := by
  have hA₁ : (0 : ℝ) < (A₁ : ℝ) := by exact_mod_cast h₁
  have hA₂ : (0 : ℝ) < (A₂ : ℝ) := by exact_mod_cast h₂
  have hs₁ : (0 : ℝ) < Real.sqrt (A₁ : ℝ) := Real.sqrt_pos.mpr hA₁
  have hs₂ : (0 : ℝ) < Real.sqrt (A₂ : ℝ) := Real.sqrt_pos.mpr hA₂
  have hmul : (d₂ : ℝ) / Real.sqrt (A₂ : ℝ) ≤ (d₁ : ℝ) / Real.sqrt (A₁ : ℝ)
      ↔ (d₂ : ℝ) * Real.sqrt (A₁ : ℝ) ≤ (d₁ : ℝ) * Real.sqrt (A₂ : ℝ) :=
    div_le_div_iff₀ hs₂ hs₁
  rw [hmul]
  unfold cosGe
  by_cases hd₁ : (0 : ℚ) ≤ d₁
  · have hd₁r : (0 : ℝ) ≤ (d₁ : ℝ) := by exact_mod_cast hd₁
    rw [if_pos hd₁]
    by_cases hd₂ : d₂ ≤ 0
    · have hd₂r : (d₂ : ℝ) ≤ 0 := by exact_mod_cast hd₂
      simp only [if_pos hd₂, true_iff]
      calc (d₂ : ℝ) * Real.sqrt (A₁ : ℝ) ≤ 0 :=
            mul_nonpos_of_nonpos_of_nonneg hd₂r hs₁.le
        _ ≤ (d₁ : ℝ) * Real.sqrt (A₂ : ℝ) := mul_nonneg hd₁r hs₂.le
    · have hd₂r : (0 : ℝ) ≤ (d₂ : ℝ) := by
        have : (0 : ℚ) ≤ d₂ := le_of_not_le hd₂
        exact_mod_cast this
      rw [if_neg hd₂]
      have hiff : (d₂ : ℝ) * Real.sqrt (A₁ : ℝ) ≤ (d₁ : ℝ) * Real.sqrt (A₂ : ℝ)
          ↔ ((d₂ : ℝ) * Real.sqrt (A₁ : ℝ)) * ((d₂ : ℝ) * Real.sqrt (A₁ : ℝ))
            ≤ ((d₁ : ℝ) * Real.sqrt (A₂ : ℝ)) * ((d₁ : ℝ) * Real.sqrt (A₂ : ℝ)) :=
        mul_self_le_mul_self_iff (mul_nonneg hd₂r hs₁.le) (mul_nonneg hd₁r hs₂.le)
      rw [hiff]
      have e₁ : ((d₂ : ℝ) * Real.sqrt (A₁ : ℝ)) * ((d₂ : ℝ) * Real.sqrt (A₁ : ℝ))
          = (d₂ : ℝ) ^ 2 * (A₁ : ℝ) := by
        have := Real.mul_self_sqrt hA₁.le
        nlinarith [this]
      have e₂ : ((d₁ : ℝ) * Real.sqrt (A₂ : ℝ)) * ((d₁ : ℝ) * Real.sqrt (A₂ : ℝ))
          = (d₁ : ℝ) ^ 2 * (A₂ : ℝ) := by
        have := Real.mul_self_sqrt hA₂.le
        nlinarith [this]
      rw [e₁, e₂]
      rw [decide_eq_true_eq]
      constructor
      · intro h; exact_mod_cast h
      · intro h; exact_mod_cast h
  · have hd₁r : (d₁ : ℝ) < 0 := by
      have : d₁ < 0 := lt_of_not_le hd₁
      exact_mod_cast this
    rw [if_neg hd₁]
    by_cases hd₂ : (0 : ℚ) ≤ d₂
    · have hd₂r : (0 : ℝ) ≤ (d₂ : ℝ) := by exact_mod_cast hd₂
      simp only [if_pos hd₂, Bool.false_eq_true, false_iff, not_le]
      calc (d₁ : ℝ) * Real.sqrt (A₂ : ℝ) < 0 :=
            mul_neg_of_neg_of_pos hd₁r hs₂
        _ ≤ (d₂ : ℝ) * Real.sqrt (A₁ : ℝ) := mul_nonneg hd₂r hs₁.le
    · have hd₂r : (d₂ : ℝ) < 0 := by
        have : d₂ < 0 := lt_of_not_le hd₂
        exact_mod_cast this
      rw [if_neg hd₂]
      have hneg : (d₂ : ℝ) * Real.sqrt (A₁ : ℝ) ≤ (d₁ : ℝ) * Real.sqrt (A₂ : ℝ)
          ↔ (-(d₁ : ℝ)) * Real.sqrt (A₂ : ℝ) ≤ (-(d₂ : ℝ)) * Real.sqrt (A₁ : ℝ) := by
        constructor <;> intro h <;> nlinarith [h]
      rw [hneg]
      have hiff : (-(d₁ : ℝ)) * Real.sqrt (A₂ : ℝ) ≤ (-(d₂ : ℝ)) * Real.sqrt (A₁ : ℝ)
          ↔ ((-(d₁ : ℝ)) * Real.sqrt (A₂ : ℝ)) * ((-(d₁ : ℝ)) * Real.sqrt (A₂ : ℝ))
            ≤ ((-(d₂ : ℝ)) * Real.sqrt (A₁ : ℝ)) * ((-(d₂ : ℝ)) * Real.sqrt (A₁ : ℝ)) :=
        mul_self_le_mul_self_iff
          (mul_nonneg (by linarith) hs₂.le) (mul_nonneg (by linarith) hs₁.le)
      rw [hiff]
      have e₁ : ((-(d₁ : ℝ)) * Real.sqrt (A₂ : ℝ)) * ((-(d₁ : ℝ)) * Real.sqrt (A₂ : ℝ))
          = (d₁ : ℝ) ^ 2 * (A₂ : ℝ) := by
        have := Real.mul_self_sqrt hA₂.le
        nlinarith [this]
      have e₂ : ((-(d₂ : ℝ)) * Real.sqrt (A₁ : ℝ)) * ((-(d₂ : ℝ)) * Real.sqrt (A₁ : ℝ))
          = (d₂ : ℝ) ^ 2 * (A₁ : ℝ) := by
        have := Real.mul_self_sqrt hA₁.le
        nlinarith [this]
      rw [e₁, e₂]
      rw [decide_eq_true_eq]
      constructor
      · intro h; exact_mod_cast h
      · intro h; exact_mod_cast h

theorem dle_fin_two_iff (d A : ℚ) (h : 0 < A) :
    dle (.fin d A) .two = true ↔ DistVal.toR (.fin d A) ≤ DistVal.toR .two := by
  have hA : (0 : ℝ) < (A : ℝ) := by exact_mod_cast h
  have hs : (0 : ℝ) < Real.sqrt (A : ℝ) := Real.sqrt_pos.mpr hA
  have hss := Real.mul_self_sqrt hA.le
  have hr : DistVal.toR (.fin d A) ≤ DistVal.toR .two
      ↔ -Real.sqrt (A : ℝ) ≤ (d : ℝ) := by
    show 1 - (d : ℝ) / Real.sqrt (A : ℝ) ≤ 2 ↔ _
    rw [sub_le_iff_le_add]
    constructor
    · intro hle
      by_contra hcon
      push_neg at hcon
      have h1 : Real.sqrt (A : ℝ) < -(d : ℝ) := by linarith
      have h2 : (d : ℝ) / Real.sqrt (A : ℝ) < -1 := by
        rw [div_lt_iff₀ hs]
        linarith
      linarith
    · intro hge
      have h2 : (-1 : ℝ) ≤ (d : ℝ) / Real.sqrt (A : ℝ) := by
        rw [le_div_iff₀ hs]
        linarith
      linarith
  rw [hr]
  show (decide (0 ≤ d) || decide (d ^ 2 ≤ A)) = true ↔ _
  rw [Bool.or_eq_true, decide_eq_true_eq, decide_eq_true_eq]
  constructor
  · rintro (hd | hd2)
    · have : (0 : ℝ) ≤ (d : ℝ) := by exact_mod_cast hd
      linarith
    · by_cases hd : (0 : ℚ) ≤ d
      · have : (0 : ℝ) ≤ (d : ℝ) := by exact_mod_cast hd
        linarith
      · have hdr : (d : ℝ) < 0 := by
          have : d < 0 := lt_of_not_le hd
          exact_mod_cast this
        have hd2r : (d : ℝ) ^ 2 ≤ (A : ℝ) := by exact_mod_cast hd2
        nlinarith [hss, hs]
  · intro hge
    by_cases hd : (0 : ℚ) ≤ d
    · exact Or.inl hd
    · refine Or.inr ?_
      have hdr : (d : ℝ) < 0 := by
        have : d < 0 := lt_of_not_le hd
        exact_mod_cast this
      have : (d : ℝ) ^ 2 ≤ (A : ℝ) := by nlinarith [hss, hs]
      exact_mod_cast this

theorem dle_two_fin_iff (d A : ℚ) (h : 0 < A) :
    dle .two (.fin d A) = true ↔ DistVal.toR .two ≤ DistVal.toR (.fin d A) := by
  have hA : (0 : ℝ) < (A : ℝ) := by exact_mod_cast h
  have hs : (0 : ℝ) < Real.sqrt (A : ℝ) := Real.sqrt_pos.mpr hA
  have hss := Real.mul_self_sqrt hA.le
  have hr : DistVal.toR .two ≤ DistVal.toR (.fin d A)
      ↔ (d : ℝ) ≤ -Real.sqrt (A : ℝ) := by
    show (2 : ℝ) ≤ 1 - (d : ℝ) / Real.sqrt (A : ℝ) ↔ _
    constructor
    · intro hle
      have h2 : (d : ℝ) / Real.sqrt (A : ℝ) ≤ -1 := by linarith
      rw [div_le_iff₀ hs] at h2
      linarith
    · intro hge
      have h2 : (d : ℝ) / Real.sqrt (A : ℝ) ≤ -1 := by
        rw [div_le_iff₀ hs]
        linarith
      linarith
  rw [hr]
  show (decide (d < 0) && decide (A ≤ d ^ 2)) = true ↔ _
  rw [Bool.and_eq_true, decide_eq_true_eq, decide_eq_true_eq]
  constructor
  · rintro ⟨hd, hd2⟩
    have hdr : (d : ℝ) < 0 := by exact_mod_cast hd
    have hd2r : (A : ℝ) ≤ (d : ℝ) ^ 2 := by exact_mod_cast hd2
    nlinarith [hss, hs]
  · intro hge
    have hdr : (d : ℝ) < 0 := by nlinarith [hs]
    refine ⟨by exact_mod_cast hdr, ?_⟩
    have : (A : ℝ) ≤ (d : ℝ) ^ 2 := by nlinarith [hss, hs]
    exact_mod_cast this

theorem dle_iff (x y : DistVal) (hx : x.posA) (hy : y.posA) :
    dle x y = true ↔ x.toR ≤ y.toR := by
  cases x with
  | two =>
    cases y with
    | two => simp [dle, DistVal.toR]
    | fin d A => exact dle_two_fin_iff d A hy
  | fin d₁ A₁ =>
    cases y with
    | two => exact dle_fin_two_iff d₁ A₁ hx
    | fin d₂ A₂ =>
      show cosGe d₁ A₁ d₂ A₂ = true ↔ _
      rw [cosGe_iff d₁ A₁ d₂ A₂ hx hy]
      show _ ↔ 1 - (d₁ : ℝ) / Real.sqrt (A₁ : ℝ) ≤ 1 - (d₂ : ℝ) / Real.sqrt (A₂ : ℝ)
      constructor <;> intro h <;> linarith

theorem dle_total (x y : DistVal) (hx : x.posA) (hy : y.posA) :
    dle x y = true ∨ dle y x = true := by
  rw [dle_iff x y hx hy, dle_iff y x hy hx]
  exact le_total _ _

/-- One step of the stable ascending insertion modelling Python's stable
`list.sort`: a new element goes after every existing element that
compares `≤` to it. -/
def insertD (x : String × DistVal) : List (String × DistVal) → List (String × DistVal)
  | [] => [x]
  | y :: ys => if dle y.2 x.2 then y :: insertD x ys else x :: y :: ys

/-- Stable ascending sort by distance (`scored.sort(key=lambda x: x[1])`). -/
def sortD : List (String × DistVal) → List (String × DistVal)
  | [] => []
  | x :: xs => insertD x (sortD xs)

theorem mem_insertD (a x : String × DistVal) (l : List (String × DistVal)) :
    a ∈ insertD x l ↔ a = x ∨ a ∈ l := by
  induction l with
  | nil => simp [insertD]
  | cons y ys ih =>
    unfold insertD
    by_cases h : dle y.2 x.2
    · rw [if_pos h, List.mem_cons, ih, List.mem_cons]
      tauto
    · rw [if_neg h, List.mem_cons, List.mem_cons]

theorem mem_sortD (a : String × DistVal) (l : List (String × DistVal)) :
    a ∈ sortD l ↔ a ∈ l := by
  induction l with
  | nil => simp [sortD]
  | cons x xs ih =>
    unfold sortD
    rw [mem_insertD, ih]
    exact (List.mem_cons).symm

theorem length_insertD (x : String × DistVal) (l : List (String × DistVal)) :
    (insertD x l).length = l.length + 1 := by
  induction l with
  | nil => rfl
  | cons y ys ih =>
    unfold insertD
    by_cases h : dle y.2 x.2
    · rw [if_pos h]
      simp [ih]
    · rw [if_neg h]
      simp

theorem length_sortD (l : List (String × DistVal)) :
    (sortD l).length = l.length := by
  induction l with
  | nil => rfl
  | cons x xs ih =>
    unfold sortD
    rw [length_insertD, ih]
    rfl

theorem pairwise_insertD (x : String × DistVal) (l : List (String × DistVal))
    (hx : x.2.posA) (hl : ∀ b ∈ l, (b.2).posA)
    (hp : l.Pairwise (fun a b => a.2.toR ≤ b.2.toR)) :
    (insertD x l).Pairwise (fun a b => a.2.toR ≤ b.2.toR) := by
  induction l with
  | nil => simp [insertD]
  | cons y ys ih =>
    have hy : (y.2).posA := hl y (List.mem_cons_self y ys)
    have hys : ∀ b ∈ ys, (b.2).posA := fun b hb => hl b (List.mem_cons_of_mem y hb)
    rw [List.pairwise_cons] at hp
    unfold insertD
    by_cases h : dle y.2 x.2
    · rw [if_pos h]
      rw [List.pairwise_cons]
      refine ⟨?_, ih hys hp.2⟩
      intro b hb
      rcases (mem_insertD b x ys).mp hb with hbx | hbys
      · subst hbx
        exact (dle_iff y.2 b.2 hy hx).mp h
      · exact hp.1 b hbys
    · rw [if_neg h]
      have hxy : x.2.toR ≤ y.2.toR := by
        rcases dle_total y.2 x.2 hy hx with hle | hle
        · exact absurd hle h
        · exact (dle_iff x.2 y.2 hx hy).mp hle
      rw [List.pairwise_cons]
      refine ⟨?_, List.pairwise_cons.mpr hp⟩
      intro b hb
      rcases List.mem_cons.mp hb with hby | hbys
      · subst hby; exact hxy
      · exact le_trans hxy (hp.1 b hbys)

theorem pairwise_sortD (l : List (String × DistVal))
    (hl : ∀ b ∈ l, (b.2).posA) :
    (sortD l).Pairwise (fun a b => a.2.toR ≤ b.2.toR) := by
  induction l with
  | nil => simp [sortD]
  | cons x xs ih =>
    unfold sortD
    refine pairwise_insertD x (sortD xs) (hl x (List.mem_cons_self x xs)) ?_ ?_
    · intro b hb
      exact hl b (List.mem_cons_of_mem x ((mem_sortD b xs).mp hb))
    · exact ih (fun b hb => hl b (List.mem_cons_of_mem x hb))

/-- `MockChromaCollection.query(query_embeddings=[qe], n_results)`:
brute-force cosine-distance search.  On an empty store the result is
empty; otherwise every entry with a non-`None` embedding is scored —
distance `1 - cos` when both norms are positive (the source tests
`norm_q > 0 and norm_e > 0` on the square roots, which is equivalent to
positivity of the squared norms), else the fallback distance `2.0` — the
scores are sorted ascending (Python's stable sort) and the first
`n_results` are returned. -/
def chromaQuery (st : ChromaStore) (qe : Emb) (nResults : Nat) :
    List (String × DistVal) :=
  if st.isEmpty then []
  else
    (sortD (st.filterMap (fun p =>
      match p.2.embedding with
      | none => none
      | some emb =>
          some (p.1,
            if 0 < sumSq qe ∧ 0 < sumSq emb then
              DistVal.fin (dotL qe emb) (sumSq qe * sumSq emb)
            else DistVal.two)))).take nResults

/-- Boolean check that an entry has an embedding of positive squared
norm (used to state the claims' non-degeneracy hypothesis decidably). -/
def embPos (d : EntryData) : Bool :=
  match d.embedding with
  | some e => decide (0 < sumSq e)
  | none => false

theorem sumSq_nonneg (v : Emb) : 0 ≤ sumSq v := by
  unfold sumSq
  apply List.sum_nonneg
  intro x hx
  rcases List.mem_map.mp hx with ⟨y, _, rfl⟩
  exact mul_self_nonneg y

theorem chromaQuery_mem_scored (st : ChromaStore) (qe : Emb) (k : Nat)
    (p : String × DistVal) (hp : p ∈ chromaQuery st qe k) :
    ∃ e : Emb, (p.1, EntryData.mk (some e)) ∈ st ∧
      p.2 = (if 0 < sumSq qe ∧ 0 < sumSq e then
          DistVal.fin (dotL qe e) (sumSq qe * sumSq e)
        else DistVal.two) := by
  unfold chromaQuery at hp
  by_cases he : st.isEmpty
  · rw [if_pos he] at hp
    simp at hp
  · rw [if_neg he] at hp
    have hp2 := List.mem_of_mem_take hp
    rw [mem_sortD] at hp2
    rcases List.mem_filterMap.mp hp2 with ⟨q, hq, hmatch⟩
    cases hqe : q.2.embedding with
    | none => rw [hqe] at hmatch; simp at hmatch
    | some e =>
      rw [hqe] at hmatch
      simp only [Option.some.injEq] at hmatch
      refine ⟨e, ?_, ?_⟩
      · have : q.2 = EntryData.mk (some e) := by
          cases q2 : q.2 with
          | mk emb => rw [q2] at hqe; simpa using hqe
        have hq1 : (q.1, q.2) ∈ st := by
          have : q = (q.1, q.2) := rfl
          rw [← this]; exact hq
        rw [this] at hq1
        have hfst : p.1 = q.1 := by rw [← hmatch]
        rw [hfst]
        exact hq1
      · rw [← hmatch]

/-- C2: on a store whose embeddings all have positive (squared) norm and
a query of positive (squared) norm, `query` returns at most `n_results`
entries, in order of non-decreasing real distance (equivalently
non-increasing cosine similarity), where each returned entry's distance
is exactly `1 - cos(qe, e)` for that entry's stored embedding `e`. -/
theorem chroma_query_sorted (st : ChromaStore) (qe : Emb) (k : Nat)
    (hq : 0 < sumSq qe) (hst : ∀ p ∈ st, embPos p.2 = true) :
    (chromaQuery st qe k).length ≤ k ∧
    (chromaQuery st qe k).Pairwise (fun a b => a.2.toR ≤ b.2.toR) ∧
    (∀ p ∈ chromaQuery st qe k, ∃ e : Emb,
      (p.1, EntryData.mk (some e)) ∈ st ∧
      p.2 = DistVal.fin (dotL qe e) (sumSq qe * sumSq e) ∧
      p.2.toR = 1 - (dotL qe e : ℝ)
        / (Real.sqrt ((sumSq qe : ℚ) : ℝ) * Real.sqrt ((sumSq e : ℚ) : ℝ))) := by
  refine ⟨?_, ?_, ?_⟩
  · unfold chromaQuery
    by_cases he : st.isEmpty
    · rw [if_pos he]; simp
    · rw [if_neg he]
      exact List.length_take_le k _
  · unfold chromaQuery
    by_cases he : st.isEmpty
    · rw [if_pos he]; simp
    · rw [if_neg he]
      apply List.Pairwise.sublist (List.take_sublist k _)
      apply pairwise_sortD
      intro b hb
      rcases List.mem_filterMap.mp hb with ⟨q, hq', hmatch⟩
      cases hqe : q.2.embedding with
      | none => rw [hqe] at hmatch; simp at hmatch
      | some e =>
        rw [hqe] at hmatch
        simp only [Option.some.injEq] at hmatch
        have hpos : 0 < sumSq e := by
          have := hst q hq'
          rw [embPos, hqe] at this
          exact of_decide_eq_true this
        have : b.2 = DistVal.fin (dotL qe e) (sumSq qe * sumSq e) := by
          rw [← hmatch]
          simp [hq, hpos]
        rw [this]
        show 0 < sumSq qe * sumSq e
        exact mul_pos hq hpos
  · intro p hp
    rcases chromaQuery_mem_scored st qe k p hp with ⟨e, hmem, hval⟩
    have hpos : 0 < sumSq e := by
      have := hst _ hmem
      rw [embPos] at this
      exact of_decide_eq_true this
    rw [if_pos ⟨hq, hpos⟩] at hval
    refine ⟨e, hmem, hval, ?_⟩
    rw [hval]
    show 1 - (dotL qe e : ℝ) / Real.sqrt ((sumSq qe * sumSq e : ℚ) : ℝ) = _
    have hcast : ((sumSq qe * sumSq e : ℚ) : ℝ)
        = ((sumSq qe : ℚ) : ℝ) * ((sumSq e : ℚ) : ℝ) := by push_cast; ring
    rw [hcast, Real.sqrt_mul (by exact_mod_cast (sumSq_nonneg qe))]

/-- The seeded search scenario of `test_search_returns_sorted_results`. -/
def queryWitStore : ChromaStore :=
  [("n1", ⟨some [1, 0, 0]⟩), ("n2", ⟨some [1 / 2, 1 / 2, 0]⟩),
   ("n3", ⟨some [0, 0, 1]⟩)]

/-- C2 witness: the query theorem at the concrete three-vector store and
query `[1, 0, 0]`. -/
theorem chroma_query_sorted_witness :
    (chromaQuery queryWitStore [1, 0, 0] 3).length ≤ 3 ∧
    (chromaQuery queryWitStore [1, 0, 0] 3).Pairwise (fun a b => a.2.toR ≤ b.2.toR) ∧
    (∀ p ∈ chromaQuery queryWitStore [1, 0, 0] 3, ∃ e : Emb,
      (p.1, EntryData.mk (some e)) ∈ queryWitStore ∧
      p.2 = DistVal.fin (dotL [1, 0, 0] e) (sumSq [1, 0, 0] * sumSq e) ∧
      p.2.toR = 1 - (dotL [1, 0, 0] e : ℝ)
        / (Real.sqrt ((sumSq [1, 0, 0] : ℚ) : ℝ)
            * Real.sqrt ((sumSq e : ℚ) : ℝ))) :=
  chroma_query_sorted queryWitStore [1, 0, 0] 3 (by norm_num [sumSq])
    (by
      intro p hp
      simp only [queryWitStore, List.mem_cons, List.mem_singleton,
        List.not_mem_nil, or_false] at hp
      rcases hp with rfl | rfl | rfl <;> norm_num [embPos, sumSq])

theorem lagrange_aux (x y : ℚ) (a b : Emb) :
    0 ≤ x ^ 2 * sumSq b - 2 * (x * y) * dotL a b + y ^ 2 * sumSq a := by
  induction a generalizing b with
  | nil =>
    have h1 : dotL [] b = 0 := rfl
    have h2 : sumSq ([] : Emb) = 0 := rfl
    rw [h1, h2]
    have := sumSq_nonneg b
    nlinarith [sq_nonneg x]
  | cons a0 as ih =>
    cases b with
    | nil =>
      have h1 : dotL (a0 :: as) [] = 0 := rfl
      have h2 : sumSq ([] : Emb) = 0 := rfl
      rw [h1, h2]
      have := sumSq_nonneg (a0 :: as)
      nlinarith [sq_nonneg y]
    | cons b0 bs =>
      have h1 : dotL (a0 :: as) (b0 :: bs) = a0 * b0 + dotL as bs := by
        simp [dotL]
      have h2 : sumSq (a0 :: as) = a0 * a0 + sumSq as := by
        simp [sumSq]
      have h3 : sumSq (b0 :: bs) = b0 * b0 + sumSq bs := by
        simp [sumSq]
      rw [h1, h2, h3]
      have hterm := sq_nonneg (x * b0 - y * a0)
      have hih := ih bs
      nlinarith [hterm, hih]

theorem cauchy_schwarz_list (a b : Emb) :
    (dotL a b) ^ 2 ≤ sumSq a * sumSq b := by
  induction a generalizing b with
  | nil =>
    have h1 : dotL [] b = 0 := rfl
    have h2 : sumSq ([] : Emb) = 0 := rfl
    rw [h1, h2]
    simp
  | cons a0 as ih =>
    cases b with
    | nil =>
      have h1 : dotL (a0 :: as) [] = 0 := rfl
      have h2 : sumSq ([] : Emb) = 0 := rfl
      rw [h1, h2]
      simp
    | cons b0 bs =>
      have h1 : dotL (a0 :: as) (b0 :: bs) = a0 * b0 + dotL as bs := by
        simp [dotL]
      have h2 : sumSq (a0 :: as) = a0 * a0 + sumSq as := by
        simp [sumSq]
      have h3 : sumSq (b0 :: bs) = b0 * b0 + sumSq bs := by
        simp [sumSq]
      rw [h1, h2, h3]
      have hih := ih bs
      have haux := lagrange_aux a0 b0 as bs
      nlinarith [hih, haux]

/-- C10: `query` is total on degenerate inputs — every returned entry
comes from a stored `(id, some e)` (entries whose embedding is `None`
never appear); whenever the query vector or the stored embedding has
zero norm, the pair is assigned the literal distance `2.0` instead of a
division by zero; and every returned distance is at most 2, so the
degenerate entries rank last in the (ascending) ordering. -/
theorem chroma_query_degenerate (st : ChromaStore) (qe : Emb) (k : Nat) :
    (∀ p ∈ chromaQuery st qe k, ∃ e : Emb,
      (p.1, EntryData.mk (some e)) ∈ st ∧
      (¬ (0 < sumSq qe ∧ 0 < sumSq e) → p.2 = DistVal.two ∧ p.2.toR = 2)) ∧
    (∀ p ∈ chromaQuery st qe k, p.2.toR ≤ 2) := by
  constructor
  · intro p hp
    rcases chromaQuery_mem_scored st qe k p hp with ⟨e, hmem, hval⟩
    refine ⟨e, hmem, ?_⟩
    intro hdeg
    rw [if_neg hdeg] at hval
    exact ⟨hval, by rw [hval]; rfl⟩
  · intro p hp
    rcases chromaQuery_mem_scored st qe k p hp with ⟨e, hmem, hval⟩
    by_cases hdeg : 0 < sumSq qe ∧ 0 < sumSq e
    · rw [if_pos hdeg] at hval
      rw [hval]
      show 1 - (dotL qe e : ℝ) / Real.sqrt ((sumSq qe * sumSq e : ℚ) : ℝ) ≤ 2
      have hApos : (0 : ℚ) < sumSq qe * sumSq e := mul_pos hdeg.1 hdeg.2
      have hAr : (0 : ℝ) < ((sumSq qe * sumSq e : ℚ) : ℝ) := by exact_mod_cast hApos
      have hs : (0 : ℝ) < Real.sqrt ((sumSq qe * sumSq e : ℚ) : ℝ) :=
        Real.sqrt_pos.mpr hAr
      have hss := Real.mul_self_sqrt hAr.le
      have hcs : ((dotL qe e : ℚ) : ℝ) ^ 2 ≤ ((sumSq qe * sumSq e : ℚ) : ℝ) := by
        exact_mod_cast cauchy_schwarz_list qe e
      have hge : -Real.sqrt ((sumSq qe * sumSq e : ℚ) : ℝ) ≤ ((dotL qe e : ℚ) : ℝ) := by
        by_contra hcon
        push_neg at hcon
        nlinarith [hcon, hs, hss, hcs]
      have hdiv : (-1 : ℝ) ≤ ((dotL qe e : ℚ) : ℝ)
          / Real.sqrt ((sumSq qe * sumSq e : ℚ) : ℝ) := by
        rw [le_div_iff₀ hs]
        linarith
      linarith
    · rw [if_neg hdeg] at hval
      rw [hval]
      show (2 : ℝ) ≤ 2
      exact le_refl 2

/-- A degenerate store: a zero vector under `"z"` and a `None` embedding
under `"n"`. -/
def degWitStore : ChromaStore := [("z", ⟨some [0, 0]⟩), ("n", ⟨none⟩)]

theorem deg_mem : ("z", DistVal.two) ∈ chromaQuery degWitStore [] 10 := by
  simp [chromaQuery, degWitStore, sortD, insertD, sumSq, dle]

/-- C10 witness: the degenerate-query theorem applied to the zero-vector
entry of `degWitStore` under the empty query. -/
theorem chroma_query_degenerate_witness :
    (∃ e : Emb, ("z", EntryData.mk (some e)) ∈ degWitStore ∧
      (¬ (0 < sumSq ([] : Emb) ∧ 0 < sumSq e) →
        ("z", DistVal.two).2 = DistVal.two ∧ ("z", DistVal.two).2.toR = 2)) ∧
    ("z", DistVal.two).2.toR ≤ 2 :=
  ⟨(chroma_query_degenerate degWitStore [] 10).1 ("z", DistVal.two) deg_mem,
   (chroma_query_degenerate degWitStore [] 10).2 ("z", DistVal.two) deg_mem⟩

/- ══════════════════════════════════════════════════════════════════════
   C8 — migrate_backup.merge_knowledge_file: idempotent entry merge.
   File contents are modelled as lists of lines (a line is a `List Char`,
   without its terminating newline).  The source's regexes
   (`##\s*EXP-\d+...` etc.) are modelled line-anchored: a header is
   recognised at the start of a line, which is where the tool itself
   writes them.
   ══════════════════════════════════════════════════════════════════════ -/

/-- A line of text (without the newline). -/
abbrev Line := List Char

/-- A file's content as lines. -/
abbrev Doc := List Line

/-- Intra-line whitespace (`\s` on a single line). -/
def isWs (c : Char) : Bool := (c == ' ') || (c == '\t')

/-- Drop leading whitespace (`\s*`). -/
def dropWs : Line → Line
  | [] => []
  | c :: cs => if isWs c then dropWs cs else c :: cs

/-- A line consisting only of whitespace. -/
def isBlank (l : Line) : Bool := l.all isWs

/-- Remove a literal character-sequence at the start of a line. -/
def stripPre (p : Line) (s : Line) : Option Line :=
  match p, s with
  | [], rest => some rest
  | _ :: _, [] => none
  | c :: ps, d :: ss => if c = d then stripPre ps ss else none

/-- Split off the leading digit run (`\d*`). -/
def takeDigits : Line → Line × Line
  | [] => ([], [])
  | c :: cs =>
    if c.isDigit then
      ((takeDigits cs).1.cons c, (takeDigits cs).2)
    else ([], c :: cs)

/-- Match `H\s*T\d+` at the start of a line (`H` the heading marker,
`T` the identifier tag such as `EXP-`), returning the captured
identifier `T<digits>`. -/
def idAfter (hashes tag : Line) (line : Line) : Option String :=
  match stripPre hashes line with
  | none => none
  | some r =>
    match stripPre tag (dropWs r) with
    | none => none
    | some r2 =>
      if (takeDigits r2).1.isEmpty then none
      else some (String.mk (tag ++ (takeDigits r2).1))

/-- Collect continuation lines of an entry (`(?:(?!STOP).*\n)*`): every
line up to, but excluding, the first line matching the stop pattern. -/
def takeBlock (stop : Line → Bool) : Doc → Doc × Doc
  | [] => ([], [])
  | l :: ls =>
    if stop l then ([], l :: ls)
    else ((takeBlock stop ls).1.cons l, (takeBlock stop ls).2)

theorem takeBlock_snd_length (stop : Line → Bool) (ls : Doc) :
    (takeBlock stop ls).2.length ≤ ls.length := by
  induction ls with
  | nil => simp [takeBlock]
  | cons l ls ih =>
    unfold takeBlock
    by_cases h : stop l
    · rw [if_pos h]
    · rw [if_neg h]
      simp only
      exact le_trans ih (Nat.le_succ _)

theorem takeBlock_snd_subset (stop : Line → Bool) (ls : Doc) :
    ∀ x ∈ (takeBlock stop ls).2, x ∈ ls := by
  induction ls with
  | nil => simp [takeBlock]
  | cons l ls ih =>
    unfold takeBlock
    by_cases h : stop l
    · rw [if_pos h]
      intro x hx
      exact hx
    · rw [if_neg h]
      intro x hx
      exact List.mem_cons_of_mem l (ih x hx)

/-- `re.findall` of entry blocks: each match is its header line plus the
continuation lines up to the stop pattern, keyed by the captured id. -/
def extractEntries (hdr : Line → Option String) (stop : Line → Bool) :
    Doc → List (String × Doc)
  | [] => []
  | l :: ls =>
    match hdr l with
    | some i =>
        (i, l :: (takeBlock stop ls).1)
          :: extractEntries hdr stop (takeBlock stop ls).2
    | none => extractEntries hdr stop ls
termination_by d => d.length
decreasing_by
  all_goals first
    | exact Nat.lt_succ_of_le (takeBlock_snd_length stop ls)
    | exact Nat.lt_succ_of_le (Nat.le_refl _)

/-- Python's `str.strip()` on a block: drop trailing blank lines (the
header line in front is never blank). -/
def rstripLines (b : Doc) : Doc := (b.reverse.dropWhile isBlank).reverse

/-- `re.findall` of bare identifiers over a whole document. -/
def scanIds (hdr : Line → Option String) (d : Doc) : List String := d.filterMap hdr

/-- The comment line written before appended entries. -/
def markerLine : Line := "<!-- Migrado do backup -->".toList

/-- The block-entry branches of `merge_knowledge_file` (EXPERIENCE,
PATTERN, ADR): append, after a blank line and the migration marker,
every source entry whose id does not yet occur in the destination; if
nothing is new the destination is untouched. -/
def mergeBlock (hashes tag : Line) (stop : Line → Bool) (src dest : Doc) : Doc :=
  let es := extractEntries (idAfter hashes tag) stop src
  let existing := scanIds (idAfter hashes tag) dest
  let newE := es.filter (fun e => !(existing.contains e.1))
  if newE.isEmpty then dest
  else
    dest ++ ([] : Line) :: markerLine
      :: (newE.map (fun e => ([] : Line) :: rstripLines e.2)).flatten

theorem extractEntries_bounded (hdr : Line → Option String) (stop : Line → Bool) :
    ∀ (n : Nat) (d : Doc), d.length ≤ n →
      ∀ e ∈ extractEntries hdr stop d,
        ∃ l bs, e.2 = l :: bs ∧ hdr l = some e.1 ∧ l ∈ d := by
  intro n
  induction n with
  | zero =>
    intro d hd e he
    have hnil : d = [] := List.length_eq_zero.mp (Nat.le_zero.mp hd)
    subst hnil
    simp [extractEntries] at he
  | succ n ih =>
    intro d hd e he
    cases d with
    | nil => simp [extractEntries] at he
    | cons l ls =>
      unfold extractEntries at he
      cases hl : hdr l with
      | some i =>
        rw [hl] at he
        simp only at he
        rcases List.mem_cons.mp he with rfl | htail
        · exact ⟨l, (takeBlock stop ls).1, rfl, hl, List.mem_cons_self l ls⟩
        · have hlen : (takeBlock stop ls).2.length ≤ n := by
            have h1 := takeBlock_snd_length stop ls
            have h2 : ls.length ≤ n := by
              simpa using hd
            omega
          rcases ih _ hlen e htail with ⟨l', bs, hb, hl', hmem⟩
          exact ⟨l', bs, hb, hl',
            List.mem_cons_of_mem l (takeBlock_snd_subset stop ls l' hmem)⟩
      | none =>
        rw [hl] at he
        simp only at he
        have hlen : ls.length ≤ n := by simpa using hd
        rcases ih _ hlen e he with ⟨l', bs, hb, hl', hmem⟩
        exact ⟨l', bs, hb, hl', List.mem_cons_of_mem l hmem⟩

theorem extractEntries_spec (hdr : Line → Option String) (stop : Line → Bool)
    (d : Doc) (e : String × Doc) (he : e ∈ extractEntries hdr stop d) :
    ∃ l bs, e.2 = l :: bs ∧ hdr l = some e.1 ∧ l ∈ d :=
  extractEntries_bounded hdr stop d.length d (Nat.le_refl _) e he

theorem idAfter_not_blank (hs tag l : Line) (i : String)
    (h : idAfter ('#' :: hs) tag l = some i) : isBlank l = false := by
  unfold idAfter at h
  cases hsp : stripPre ('#' :: hs) l with
  | none => rw [hsp] at h; simp at h
  | some r =>
    cases l with
    | nil => simp [stripPre] at hsp
    | cons c cs =>
      have hc : ('#' : Char) = c := by
        by_cases hcc : ('#' : Char) = c
        · exact hcc
        · simp [stripPre, hcc] at hsp
      rw [← hc]
      simp [isBlank, isWs]

theorem mem_dropWhile_append_singleton (p : Line → Bool) (a : Line)
    (xs : List Line) (ha : p a = false) : a ∈ (xs ++ [a]).dropWhile p := by
  induction xs with
  | nil => simp [List.dropWhile, ha]
  | cons x xs ih =>
    by_cases hx : p x
    · simpa [List.dropWhile_cons, hx] using ih
    · simp [List.dropWhile_cons, hx]

theorem head_mem_rstripLines (l : Line) (bs : Doc) (hl : isBlank l = false) :
    l ∈ rstripLines (l :: bs) := by
  unfold rstripLines
  rw [List.mem_reverse]
  have hrev : (l :: bs).reverse = bs.reverse ++ [l] := by simp
  rw [hrev]
  exact mem_dropWhile_append_singleton isBlank l bs.reverse hl

theorem mergeBlock_of_covered (hashes tag : Line) (stop : Line → Bool)
    (src dest : Doc)
    (hcov : ∀ e ∈ extractEntries (idAfter hashes tag) stop src,
      e.1 ∈ scanIds (idAfter hashes tag) dest) :
    mergeBlock hashes tag stop src dest = dest := by
  simp only [mergeBlock]
  have hnil : (extractEntries (idAfter hashes tag) stop src).filter
      (fun e => !((scanIds (idAfter hashes tag) dest).contains e.1)) = [] := by
    rw [List.filter_eq_nil_iff]
    intro e he
    simp [hcov e he]
  rw [hnil]
  rfl

theorem mergeBlock_covers (hashes tag : Line) (stop : Line → Bool)
    (src dest : Doc)
    (hh : ∀ l i, idAfter hashes tag l = some i → isBlank l = false) :
    ∀ e ∈ extractEntries (idAfter hashes tag) stop src,
      e.1 ∈ scanIds (idAfter hashes tag) (mergeBlock hashes tag stop src dest) := by
  intro e he
  simp only [mergeBlock]
  by_cases hnew : ((extractEntries (idAfter hashes tag) stop src).filter
      (fun e => !((scanIds (idAfter hashes tag) dest).contains e.1))).isEmpty
  · rw [if_pos hnew]
    have hnil : (extractEntries (idAfter hashes tag) stop src).filter
        (fun e => !((scanIds (idAfter hashes tag) dest).contains e.1)) = [] :=
      List.isEmpty_iff.mp hnew
    have hcond := List.filter_eq_nil_iff.mp hnil e he
    simpa using hcond
  · rw [if_neg hnew]
    show e.1 ∈ scanIds (idAfter hashes tag) (dest ++ _)
    unfold scanIds
    rw [List.filterMap_append]
    by_cases hex : e.1 ∈ scanIds (idAfter hashes tag) dest
    · exact List.mem_append_left _ hex
    · refine List.mem_append_right _ ?_
      have henew : e ∈ (extractEntries (idAfter hashes tag) stop src).filter
          (fun e => !((scanIds (idAfter hashes tag) dest).contains e.1)) := by
        refine List.mem_filter.mpr ⟨he, ?_⟩
        simp [hex]
      rcases extractEntries_spec _ _ _ e he with ⟨l, bs, hb, hl, _⟩
      apply List.mem_filterMap.mpr
      refine ⟨l, ?_, hl⟩
      apply List.mem_cons_of_mem
      apply List.mem_cons_of_mem
      apply List.mem_flatten.mpr
      refine ⟨([] : Line) :: rstripLines e.2, List.mem_map_of_mem _ henew, ?_⟩
      apply List.mem_cons_of_mem
      rw [hb]
      exact head_mem_rstripLines l bs (hh l e.1 hl)

theorem mergeBlock_idem (hashes tag : Line) (stop : Line → Bool)
    (hh : ∀ l i, idAfter hashes tag l = some i → isBlank l = false)
    (src dest : Doc) :
    mergeBlock hashes tag stop src (mergeBlock hashes tag stop src dest)
      = mergeBlock hashes tag stop src dest :=
  mergeBlock_of_covered hashes tag stop src _
    (mergeBlock_covers hashes tag stop src dest hh)

theorem mergeBlock_self (hashes tag : Line) (stop : Line → Bool) (src : Doc) :
    mergeBlock hashes tag stop src src = src :=
  mergeBlock_of_covered hashes tag stop src src (fun e he => by
    rcases extractEntries_spec _ _ _ e he with ⟨l, _, _, hl, hmem⟩
    exact List.mem_filterMap.mpr ⟨l, hmem, hl⟩)

/-- Split off the run of non-`*` characters (`[^*]+`). -/
def takeNonStar : Line → Line × Line
  | [] => ([], [])
  | c :: cs =>
    if c = '*' then ([], c :: cs)
    else ((takeNonStar cs).1.cons c, (takeNonStar cs).2)

/-- Match `-\s*\*\*([^*]+)\*\*:` at the start of a line, returning the
captured term name and the remainder after the colon. -/
def termParse (line : Line) : Option (String × Line) :=
  match stripPre ['-'] line with
  | none => none
  | some r =>
    match stripPre ['*', '*'] (dropWs r) with
    | none => none
    | some r2 =>
      if (takeNonStar r2).1.isEmpty then none
      else
        match stripPre ['*', '*', ':'] (takeNonStar r2).2 with
        | none => none
        | some rest => some (String.mk (takeNonStar r2).1, rest)

/-- The destination scan `-\s*\*\*([^*]+)\*\*:` (no content required
after the colon). -/
def termScan (line : Line) : Option String := (termParse line).map (·.1)

/-- A glossary entry of the source, `-\s*\*\*[^*]+\*\*:[^\n]+` — at
least one character must follow the colon. -/
def termEntry (line : Line) : Option String :=
  match termParse line with
  | some (nm, rest) => if rest.isEmpty then none else some nm
  | none => none

/-- The DOMAIN branch: append, after the migration marker, every source
glossary term whose name does not yet occur in the destination; if
nothing is new the destination is untouched. -/
def mergeDomain (src dest : Doc) : Doc :=
  let terms := src.filter (fun l => (termEntry l).isSome)
  let existing := dest.filterMap termScan
  let newT := terms.filter (fun l =>
    match termEntry l with
    | some nm => !(existing.contains nm)
    | none => false)
  if newT.isEmpty then dest
  else dest ++ [([] : Line), markerLine, ([] : Line)] ++ newT

theorem termEntry_termScan (l : Line) (nm : String)
    (h : termEntry l = some nm) : termScan l = some nm := by
  unfold termEntry at h
  unfold termScan
  cases hp : termParse l with
  | none => rw [hp] at h; simp at h
  | some p =>
    rw [hp] at h
    simp only at h
    by_cases hr : p.2.isEmpty
    · rw [if_pos hr] at h; simp at h
    · rw [if_neg hr] at h
      simp only [Option.some.injEq] at h
      simp [h]

theorem mergeDomain_of_covered (src dest : Doc)
    (hcov : ∀ l ∈ src, ∀ nm, termEntry l = some nm →
      nm ∈ dest.filterMap termScan) :
    mergeDomain src dest = dest := by
  simp only [mergeDomain]
  have hnil : (src.filter (fun l => (termEntry l).isSome)).filter
      (fun l => match termEntry l with
        | some nm => !((dest.filterMap termScan).contains nm)
        | none => false) = [] := by
    rw [List.filter_eq_nil_iff]
    intro l hl
    have hsrc : l ∈ src := (List.mem_filter.mp hl).1
    have hsome : (termEntry l).isSome := by
      have := (List.mem_filter.mp hl).2
      simpa using this
    cases ht : termEntry l with
    | none => rw [ht] at hsome; simp at hsome
    | some nm =>
      have := hcov l hsrc nm ht
      simp [ht, this]
  rw [hnil]
  rfl

theorem mergeDomain_covers (src dest : Doc) :
    ∀ l ∈ src, ∀ nm, termEntry l = some nm →
      nm ∈ (mergeDomain src dest).filterMap termScan := by
  intro l hl nm ht
  simp only [mergeDomain]
  have hterm : l ∈ src.filter (fun l => (termEntry l).isSome) := by
    refine List.mem_filter.mpr ⟨hl, ?_⟩
    simp [ht]
  by_cases hnew : ((src.filter (fun l => (termEntry l).isSome)).filter
      (fun l => match termEntry l with
        | some nm => !((dest.filterMap termScan).contains nm)
        | none => false)).isEmpty
  · rw [if_pos hnew]
    have hnil := List.isEmpty_iff.mp hnew
    have hcond := List.filter_eq_nil_iff.mp hnil l hterm
    rw [ht] at hcond
    simpa using hcond
  · rw [if_neg hnew]
    rw [List.filterMap_append]
    by_cases hex : nm ∈ dest.filterMap termScan
    · refine List.mem_append_left _ ?_
      rw [List.filterMap_append]
      exact List.mem_append_left _ hex
    · refine List.mem_append_right _ ?_
      have hmem : l ∈ (src.filter (fun l => (termEntry l).isSome)).filter
          (fun l => match termEntry l with
            | some nm => !((dest.filterMap termScan).contains nm)
            | none => false) := by
        refine List.mem_filter.mpr ⟨hterm, ?_⟩
        rw [ht]
        simp [hex]
      exact List.mem_filterMap.mpr ⟨l, hmem, termEntry_termScan l nm ht⟩

theorem mergeDomain_idem (src dest : Doc) :
    mergeDomain src (mergeDomain src dest) = mergeDomain src dest :=
  mergeDomain_of_covered src _ (mergeDomain_covers src dest)

theorem mergeDomain_self (src : Doc) : mergeDomain src src = src :=
  mergeDomain_of_covered src src (fun l hl nm ht =>
    List.mem_filterMap.mpr ⟨l, hl, termEntry_termScan l nm ht⟩)

/-- Substring test (`"EXPERIENCE" in str(src_path)`). -/
def hasSub (s pat : String) : Bool := (s.splitOn pat).length != 1

/-- The content transformation of `merge_knowledge_file`'s branch
cascade once both files exist: EXPERIENCE / PATTERN / ADR merge block
entries, DOMAIN merges glossary terms, and the remaining branches
(PRIORITY — manual review, CURRENT_STATE — keep the new file, unmatched
file names) leave the destination untouched. -/
def mergeContent (srcPath : String) (s d : Doc) : Doc :=
  if hasSub srcPath "EXPERIENCE" then
    mergeBlock ['#', '#'] "EXP-".toList
      (fun l => (stripPre ['#', '#'] l).isSome) s d
  else if hasSub srcPath "PATTERN" then
    mergeBlock ['#', '#', '#'] "PAT-".toList
      (fun l => (stripPre ['#', '#', '#'] l).isSome) s d
  else if hasSub srcPath "ADR" then
    mergeBlock ['#', '#'] "ADR-".toList
      (fun l =>
        match stripPre ['#', '#'] l with
        | none => false
        | some r => (stripPre ['A', 'D', 'R'] (dropWs r)).isSome) s d
  else if hasSub srcPath "DOMAIN" then mergeDomain s d
  else d

/-- `migrate_backup.merge_knowledge_file(src_path, dest_path)` over the
line model: `none` stands for a missing file.  A missing source returns
`False`; a missing destination is handled by a plain copy; otherwise the
branch cascade merges by entry identifier and returns `True` on every
recognised file kind, `False` on the final fall-through. -/
def merge_knowledge_file (srcPath : String) (src dest : Option Doc) :
    Option Doc × Bool :=
  match src with
  | none => (dest, false)
  | some s =>
    match dest with
    | none => (some s, true)
    | some d =>
        (some (mergeContent srcPath s d),
         hasSub srcPath "EXPERIENCE" || hasSub srcPath "PATTERN" ||
         hasSub srcPath "ADR" || hasSub srcPath "DOMAIN" ||
         hasSub srcPath "PRIORITY" || hasSub srcPath "CURRENT_STATE")

theorem hashTag_not_blank (hs tag : Line) :
    ∀ l i, idAfter ('#' :: hs) tag l = some i → isBlank l = false :=
  fun l i h => idAfter_not_blank hs tag l i h

theorem mergeContent_idem (srcPath : String) (s d : Doc) :
    mergeContent srcPath s (mergeContent srcPath s d)
      = mergeContent srcPath s d := by
  unfold mergeContent
  by_cases h1 : hasSub srcPath "EXPERIENCE"
  · rw [if_pos h1, if_pos h1]
    exact mergeBlock_idem _ _ _ (hashTag_not_blank ['#'] _) s d
  · rw [if_neg h1, if_neg h1]
    by_cases h2 : hasSub srcPath "PATTERN"
    · rw [if_pos h2, if_pos h2]
      exact mergeBlock_idem _ _ _ (hashTag_not_blank ['#', '#'] _) s d
    · rw [if_neg h2, if_neg h2]
      by_cases h3 : hasSub srcPath "ADR"
      · rw [if_pos h3, if_pos h3]
        exact mergeBlock_idem _ _ _ (hashTag_not_blank ['#'] _) s d
      · rw [if_neg h3, if_neg h3]
        by_cases h4 : hasSub srcPath "DOMAIN"
        · rw [if_pos h4, if_pos h4]
          exact mergeDomain_idem s d
        · rw [if_neg h4, if_neg h4]

theorem mergeContent_self (srcPath : String) (s : Doc) :
    mergeContent srcPath s s = s := by
  unfold mergeContent
  by_cases h1 : hasSub srcPath "EXPERIENCE"
  · rw [if_pos h1]
    exact mergeBlock_self _ _ _ s
  · rw [if_neg h1]
    by_cases h2 : hasSub srcPath "PATTERN"
    · rw [if_pos h2]
      exact mergeBlock_self _ _ _ s
    · rw [if_neg h2]
      by_cases h3 : hasSub srcPath "ADR"
      · rw [if_pos h3]
        exact mergeBlock_self _ _ _ s
      · rw [if_neg h3]
        by_cases h4 : hasSub srcPath "DOMAIN"
        · rw [if_pos h4]
          exact mergeDomain_self s
        · rw [if_neg h4]

/-- C8: `merge_knowledge_file` is idempotent on identified entries — an
entry whose identifier (`EXP-NNN`, `PAT-NNN`, `ADR-NNN`, or a `**Term**`
glossary name) already occurs in the destination is never appended, so a
second run of the merge with the same source leaves the destination
content identical (this holds for every path, source and destination,
including the copy path taken when the destination does not exist). -/
theorem merge_knowledge_file_idem (srcPath : String) (src dest : Option Doc) :
    (merge_knowledge_file srcPath src
        (merge_knowledge_file srcPath src dest).1).1
      = (merge_knowledge_file srcPath src dest).1 := by
  cases src with
  | none => rfl
  | some s =>
    cases dest with
    | none =>
      show (some (mergeContent srcPath s s), _).1 = some s
      rw [mergeContent_self]
    | some d =>
      show (some (mergeContent srcPath s (mergeContent srcPath s d)), _).1
        = some (mergeContent srcPath s d)
      rw [mergeContent_idem]
